import Mathlib

/-
Verification of the fuzzy track-matching and ranking engine of
hachimi_music_plugin (src/__init__.py).

Modelling conventions:
- Python strings are modelled as `List Char`.
- Python float arithmetic on the score weights and similarity ratios is
  modelled exactly by rational numbers (`ℚ`).
- The external libraries `re` (regex compilation/search) and `pypinyin`
  (transliteration) are modelled as parameters gathered in the `Ext`
  structure; a compilation / transliteration failure (Python exception)
  is modelled by the `Option` value `none`.
- The standard-library `difflib.SequenceMatcher(a=a, b=b).ratio()` call
  in `similarity_ratio` is modelled concretely (namespace `Difflib`),
  including the `autojunk` heuristic that drops "popular" elements from
  the index when `len(b) >= 200`, since the claims about the similarity
  scorer depend on that algorithm.
-/

namespace HM

/-- Characters kept by the normalizer regex `[^一-鿿A-Za-z0-9]+`:
CJK ideographs U+4E00..U+9FFF, ASCII letters and ASCII digits. -/
def isKeep (c : Char) : Bool :=
  decide ((Char.ofNat 0x4e00 ≤ c ∧ c ≤ Char.ofNat 0x9fff) ∨
    ('A' ≤ c ∧ c ≤ 'Z') ∨ ('a' ≤ c ∧ c ≤ 'z') ∨ ('0' ≤ c ∧ c ≤ '9'))

/-- ASCII fragment of Python `str.lower`: maps `A`..`Z` to `a`..`z` and
leaves every other character unchanged (the exotic Unicode case mappings
are irrelevant to the character classes the normalizer keeps). -/
def pyLower (c : Char) : Char :=
  if 'A' ≤ c ∧ c ≤ 'Z' then Char.ofNat (c.toNat + 32) else c

/-- ASCII whitespace matched by the `\s+` regex used in `normalize_text`.
(Python `\s` also matches some further Unicode spaces; after the first
substitution pass the only whitespace character that can remain is the
inserted `' '`, so the ASCII fragment is exact here.) -/
def isPySpace (c : Char) : Bool :=
  decide (c = ' ' ∨ c = '\t' ∨ c = '\n' ∨ c = '\r' ∨
    c = Char.ofNat 0x0b ∨ c = Char.ofNat 0x0c)

/-- Scanner for the substitution `_non_cjk_alnum_space.sub(" ", text)`:
the flag records whether the scanner is inside a run of non-kept
characters, so each maximal run contributes exactly one space. -/
def collapseAux (inRun : Bool) : List Char → List Char
  | [] => []
  | c :: rest =>
    if isKeep c then c :: collapseAux false rest
    else if inRun then collapseAux true rest
    else ' ' :: collapseAux true rest

/-- The substitution `_non_cjk_alnum_space.sub(" ", text)`: every maximal
run of non-kept characters is replaced by a single space. -/
def collapseRuns (l : List Char) : List Char :=
  collapseAux false l

/-- The substitution `_spaces.sub("", ...)`: all whitespace is removed. -/
def removeWs (l : List Char) : List Char :=
  l.filter (fun c => !isPySpace c)

/-- `normalize_text` from src/__init__.py: empty guard, lowercase,
replace special-symbol runs by a space, then strip all whitespace. -/
def normalize_text (text : List Char) : List Char :=
  if text = [] then []
  else removeWs (collapseRuns (text.map pyLower))

theorem mem_collapseAux (l : List Char) :
    ∀ (flag : Bool) (x : Char), x ∈ collapseAux flag l →
      x = ' ' ∨ (x ∈ l ∧ isKeep x = true) := by
  induction l with
  | nil => intro flag x h; simp [collapseAux] at h
  | cons c rest ih =>
    intro flag x h
    by_cases hk : isKeep c
    · rw [collapseAux, if_pos hk] at h
      rcases List.mem_cons.mp h with h | h
      · subst h; exact Or.inr ⟨List.mem_cons_self _ _, hk⟩
      · rcases ih false x h with h | ⟨hm, hx⟩
        · exact Or.inl h
        · exact Or.inr ⟨List.mem_cons_of_mem _ hm, hx⟩
    · rw [collapseAux, if_neg hk] at h
      by_cases hf : flag = true
      · rw [if_pos hf] at h
        rcases ih true x h with h | ⟨hm, hx⟩
        · exact Or.inl h
        · exact Or.inr ⟨List.mem_cons_of_mem _ hm, hx⟩
      · rw [if_neg hf] at h
        rcases List.mem_cons.mp h with h | h
        · exact Or.inl h
        · rcases ih true x h with h | ⟨hm, hx⟩
          · exact Or.inl h
          · exact Or.inr ⟨List.mem_cons_of_mem _ hm, hx⟩

theorem mem_collapseRuns (l : List Char) (x : Char)
    (h : x ∈ collapseRuns l) : x = ' ' ∨ (x ∈ l ∧ isKeep x = true) :=
  mem_collapseAux l false x h

theorem collapseRuns_of_keep (l : List Char)
    (h : ∀ c ∈ l, isKeep c = true) : collapseRuns l = l := by
  unfold collapseRuns
  induction l with
  | nil => simp [collapseAux]
  | cons c rest ih =>
    rw [collapseAux, if_pos (h c (List.mem_cons_self _ _))]
    exact congrArg _ (ih fun x hx => h x (List.mem_cons_of_mem _ hx))

theorem isKeep_not_space {c : Char} (h : isKeep c = true) :
    isPySpace c = false := by
  simp only [isKeep, decide_eq_true_eq] at h
  simp only [isPySpace, decide_eq_false_iff_not]
  rintro (rfl | rfl | rfl | rfl | rfl | rfl) <;> revert h <;> decide

theorem char_le_iff {a b : Char} : a ≤ b ↔ a.toNat ≤ b.toNat := Iff.rfl

theorem char_ofNat_toNat {n : Nat} (h : n.isValidChar) :
    (Char.ofNat n).toNat = n := by
  simp only [Char.ofNat, dif_pos h, Char.ofNatAux, Char.toNat]
  simp [UInt32.toNat, BitVec.toNat_ofNat]

theorem pyLower_not_upper (c : Char) :
    ¬('A' ≤ pyLower c ∧ pyLower c ≤ 'Z') := by
  unfold pyLower
  by_cases h : 'A' ≤ c ∧ c ≤ 'Z'
  · rw [if_pos h]
    obtain ⟨h1, h2⟩ := h
    rintro ⟨g1, g2⟩
    rw [char_le_iff] at h1 h2 g1 g2
    have hA : ('A').toNat = 65 := rfl
    have hZ : ('Z').toNat = 90 := rfl
    rw [hA] at h1 g1
    rw [hZ] at h2 g2
    have hv : (Char.ofNat (c.toNat + 32)).toNat = c.toNat + 32 :=
      char_ofNat_toNat (Or.inl (by omega))
    rw [hv] at g1 g2
    omega
  · rw [if_neg h]; exact h

theorem pyLower_fix {c : Char} (h : ¬('A' ≤ c ∧ c ≤ 'Z')) :
    pyLower c = c := by
  simp [pyLower, h]

theorem isKeep_pyLower {c : Char} (h : isKeep c = true) :
    isKeep (pyLower c) = true := by
  by_cases hu : 'A' ≤ c ∧ c ≤ 'Z'
  · simp only [isKeep, decide_eq_true_eq]
    unfold pyLower
    rw [if_pos hu]
    obtain ⟨h1, h2⟩ := hu
    rw [char_le_iff] at h1 h2
    have hA : ('A').toNat = 65 := rfl
    have hZ : ('Z').toNat = 90 := rfl
    rw [hA] at h1
    rw [hZ] at h2
    have hv : (Char.ofNat (c.toNat + 32)).toNat = c.toNat + 32 :=
      char_ofNat_toNat (Or.inl (by omega))
    refine Or.inr (Or.inr (Or.inl ⟨?_, ?_⟩))
    · rw [char_le_iff, hv]
      have ha : ('a').toNat = 97 := rfl
      rw [ha]
      omega
    · rw [char_le_iff, hv]
      have hz : ('z').toNat = 122 := rfl
      rw [hz]
      omega
  · rwa [pyLower_fix hu]

theorem mem_normalize_text (t : List Char) (c : Char)
    (h : c ∈ normalize_text t) :
    isKeep c = true ∧ ¬('A' ≤ c ∧ c ≤ 'Z') := by
  unfold normalize_text at h
  by_cases ht : t = []
  · simp [ht] at h
  · rw [if_neg ht] at h
    unfold removeWs at h
    have hmem := List.mem_of_mem_filter h
    have hsp := List.of_mem_filter h
    rcases mem_collapseRuns _ _ hmem with rfl | ⟨hm, hk⟩
    · simp [isPySpace] at hsp
    · refine ⟨hk, ?_⟩
      rcases List.mem_map.mp hm with ⟨c0, _, rfl⟩
      exact pyLower_not_upper c0

theorem normalize_text_no_space (t : List Char) (c : Char)
    (h : c ∈ normalize_text t) : isPySpace c = false := by
  unfold normalize_text at h
  by_cases ht : t = []
  · simp [ht] at h
  · rw [if_neg ht] at h
    unfold removeWs at h
    have := List.of_mem_filter h
    simpa using this

theorem normalize_text_idem (t : List Char) :
    normalize_text (normalize_text t) = normalize_text t := by
  by_cases hn : normalize_text t = []
  · rw [hn]; rfl
  · have hchars := mem_normalize_text t
    rw [normalize_text, if_neg hn]
    have hmap : (normalize_text t).map pyLower = normalize_text t := by
      conv_rhs => rw [← List.map_id (normalize_text t)]
      exact List.map_congr_left fun c hc => pyLower_fix (hchars c hc).2
    rw [hmap]
    have hcol : collapseRuns (normalize_text t) = normalize_text t :=
      collapseRuns_of_keep _ fun c hc => (hchars c hc).1
    rw [hcol]
    unfold removeWs
    rw [List.filter_eq_self]
    intro c hc
    simp [normalize_text_no_space t c hc]

namespace Difflib

/-- Positions of character `c` in `b`: the chains built by
SequenceMatcher.__chain_b before junk removal. -/
def positionsOf (b : List Char) (c : Char) : List Nat :=
  (List.range b.length).filter (fun j => b.getD j ' ' == c)

/-- The autojunk heuristic: when `len(b) >= 200`, an element occurring
more than `len(b) // 100 + 1` times is popular and its chain is deleted
from b2j. -/
def isPopular (b : List Char) (c : Char) : Bool :=
  decide (200 ≤ b.length) &&
    decide (b.length / 100 + 1 < (positionsOf b c).length)

/-- The b2j dictionary (with its `.get(x, [])` default): chains of
positions, with popular chains removed.  `isjunk` is `None` in
`similarity_ratio`, so `bjunk` is empty and plays no role. -/
def b2j (b : List Char) (c : Char) : List Nat :=
  if isPopular b c then [] else positionsOf b c

/-- One inner-loop value of find_longest_match:
`k = newj2len[j] = j2len.get(j - 1, 0) + 1` (the key `-1` is never
present in the dict, hence the `j = 0` branch). -/
def rowK (j2len : Nat → Nat) (j : Nat) : Nat :=
  (if j = 0 then 0 else j2len (j - 1)) + 1

/-- The `newj2len` dict after one row, as a total function carrying the
dict's `get` default 0. -/
def newJ2len (jList : List Nat) (j2len : Nat → Nat) : Nat → Nat :=
  fun j => if j ∈ jList then rowK j2len j else 0

/-- The best-match updates of one row of find_longest_match, processing
the chain of `a[i]` in ascending order (`k > bestsize` updates to
`(i - k + 1, j - k + 1, k)`). -/
def innerBest (i : Nat) (j2len : Nat → Nat) :
    List Nat → Nat × Nat × Nat → Nat × Nat × Nat
  | [], best => best
  | j :: js, (bi, bj, bs) =>
    let k := rowK j2len j
    innerBest i j2len js
      (if bs < k then (i + 1 - k, j + 1 - k, k) else (bi, bj, bs))

/-- The row loop `for i in range(alo, ahi)` of find_longest_match.  The
`j < blo` continue / `j >= bhi` break over the ascending chain is the
filter below. -/
def dpRows (bj : Char → List Nat) (a : List Char) (blo bhi : Nat) :
    List Nat → (Nat → Nat) → Nat × Nat × Nat → Nat × Nat × Nat
  | [], _, best => best
  | i :: rest, j2len, best =>
    let jList := (bj (a.getD i ' ')).filter
      (fun j => decide (blo ≤ j) && decide (j < bhi))
    dpRows bj a blo bhi rest (newJ2len jList j2len)
      (innerBest i j2len jList best)

/-- First extension loop of find_longest_match: grow the block leftwards
over equal characters while `besti > alo and bestj > blo and
a[besti-1] == b[bestj-1]` (`isjunk` is None, so the junk test is vacuous
and the two junk-extension loops never run).  `besti` strictly decreases
and drives the structural recursion. -/
def extendLeftN (a b : List Char) (alo blo : Nat) :
    Nat → Nat → Nat → Nat × Nat × Nat
  | 0, bj, bs => (0, bj, bs)
  | bi + 1, bj, bs =>
    if alo < bi + 1 ∧ blo < bj ∧ a.getD bi ' ' = b.getD (bj - 1) ' '
    then extendLeftN a b alo blo bi (bj - 1) (bs + 1)
    else (bi + 1, bj, bs)

def extendLeft (a b : List Char) (alo blo : Nat)
    (st : Nat × Nat × Nat) : Nat × Nat × Nat :=
  extendLeftN a b alo blo st.1 st.2.1 st.2.2

/-- Second extension loop of find_longest_match: grow the block
rightwards over equal characters while `besti+bestsize < ahi and
bestj+bestsize < bhi and a[besti+bestsize] == b[bestj+bestsize]`.  The
quantity `ahi - (besti + bestsize)` strictly decreases; the wrapper
below passes exactly that bound, so when it is exhausted the loop
condition is false anyway. -/
def extendRightN (a b : List Char) (ahi bhi bi bj : Nat) :
    Nat → Nat → Nat × Nat × Nat
  | 0, bs => (bi, bj, bs)
  | fuel + 1, bs =>
    if bi + bs < ahi ∧ bj + bs < bhi ∧
        a.getD (bi + bs) ' ' = b.getD (bj + bs) ' '
    then extendRightN a b ahi bhi bi bj fuel (bs + 1)
    else (bi, bj, bs)

def extendRight (a b : List Char) (ahi bhi : Nat)
    (st : Nat × Nat × Nat) : Nat × Nat × Nat :=
  extendRightN a b ahi bhi st.1 st.2.1 (ahi - (st.1 + st.2.2)) st.2.2

/-- find_longest_match(alo, ahi, blo, bhi): the DP over rows followed by
the two extension loops, starting from best = (alo, blo, 0). -/
def findLongestMatch (bj : Char → List Nat) (a b : List Char)
    (alo ahi blo bhi : Nat) : Nat × Nat × Nat :=
  extendRight a b ahi bhi (extendLeft a b alo blo
    (dpRows bj a blo bhi (List.range' alo (ahi - alo))
      (fun _ => 0) (alo, blo, 0)))

/-- The returned block lies inside the queried intervals. -/
def BoundsOk (alo ahi blo bhi : Nat) (m : Nat × Nat × Nat) : Prop :=
  alo ≤ m.1 ∧ m.1 + m.2.2 ≤ ahi ∧ blo ≤ m.2.1 ∧ m.2.1 + m.2.2 ≤ bhi

theorem boundsOk_mk {alo ahi blo bhi bi bj bs : Nat} :
    BoundsOk alo ahi blo bhi (bi, bj, bs) ↔
      alo ≤ bi ∧ bi + bs ≤ ahi ∧ blo ≤ bj ∧ bj + bs ≤ bhi := Iff.rfl

theorem rowK_zero (j2len : Nat → Nat) : rowK j2len 0 = 1 := by
  simp [rowK]

theorem rowK_succ (j2len : Nat → Nat) {j : Nat} (h : j ≠ 0) :
    rowK j2len j = j2len (j - 1) + 1 := by
  simp [rowK, h]

theorem innerBest_bounds {alo ahi blo bhi : Nat} {i : Nat}
    {j2len : Nat → Nat}
    (hi1 : alo ≤ i) (hi2 : i < ahi)
    (hrow : ∀ j, j2len j ≤ i - alo)
    (hcol : ∀ j, j2len j = 0 ∨ blo + j2len j ≤ j + 1) :
    ∀ (js : List Nat) (best : Nat × Nat × Nat),
      (∀ j ∈ js, blo ≤ j ∧ j < bhi) →
      BoundsOk alo ahi blo bhi best →
      BoundsOk alo ahi blo bhi (innerBest i j2len js best) := by
  intro js
  induction js with
  | nil => intro best _ h; exact h
  | cons j js ih =>
    rintro ⟨bi, bj, bs⟩ hmem hb
    have hj := hmem j (List.mem_cons_self _ _)
    simp only [innerBest]
    apply ih _ (fun x hx => hmem x (List.mem_cons_of_mem _ hx))
    by_cases hlt : bs < rowK j2len j
    · rw [if_pos hlt]
      have hk1 : rowK j2len j ≤ (i - alo) + 1 := by
        by_cases hj0 : j = 0
        · subst hj0; rw [rowK_zero]; omega
        · rw [rowK_succ _ hj0]
          have := hrow (j - 1)
          omega
      have hk2 : rowK j2len j = 1 ∨ blo + rowK j2len j ≤ j + 1 := by
        by_cases hj0 : j = 0
        · subst hj0; rw [rowK_zero]; left; rfl
        · rw [rowK_succ _ hj0]
          rcases hcol (j - 1) with h0 | h0
          · left; omega
          · right; omega
      rw [boundsOk_mk]
      have hb1 := hj.1
      have hb2 := hj.2
      rcases hk2 with h0 | h0 <;> omega
    · rw [if_neg hlt]
      exact hb

theorem dpRows_bounds (bj : Char → List Nat) (a : List Char)
    {alo0 ahi blo bhi : Nat} :
    ∀ (len alo : Nat) (j2len : Nat → Nat) (best : Nat × Nat × Nat),
      alo0 ≤ alo → alo + len ≤ ahi →
      (∀ j, j2len j ≤ alo - alo0) →
      (∀ j, j2len j = 0 ∨ blo + j2len j ≤ j + 1) →
      BoundsOk alo0 ahi blo bhi best →
      BoundsOk alo0 ahi blo bhi
        (dpRows bj a blo bhi (List.range' alo len) j2len best) := by
  intro len
  induction len with
  | zero => intro alo j2len best _ _ _ _ hb; exact hb
  | succ n ih =>
    intro alo j2len best h0 hlen hrow hcol hb
    rw [List.range'_succ]
    simp only [dpRows]
    set jList := (bj (a.getD alo ' ')).filter
      (fun j => decide (blo ≤ j) && decide (j < bhi)) with hjl
    have hmem : ∀ j ∈ jList, blo ≤ j ∧ j < bhi := by
      intro j hj
      have := List.of_mem_filter hj
      simp only [Bool.and_eq_true, decide_eq_true_eq] at this
      exact this
    apply ih (alo + 1)
    · omega
    · omega
    · intro j
      unfold newJ2len
      by_cases hin : j ∈ jList
      · rw [if_pos hin]
        by_cases hj0 : j = 0
        · subst hj0; rw [rowK_zero]; omega
        · rw [rowK_succ _ hj0]
          have := hrow (j - 1)
          omega
      · rw [if_neg hin]; omega
    · intro j
      unfold newJ2len
      by_cases hin : j ∈ jList
      · rw [if_pos hin]
        have hblo := (hmem j hin).1
        by_cases hj0 : j = 0
        · subst hj0; rw [rowK_zero]; right; omega
        · rw [rowK_succ _ hj0]
          rcases hcol (j - 1) with h0 | h0
          · right; omega
          · right; omega
      · rw [if_neg hin]; left; rfl
    · exact innerBest_bounds h0 (by omega)
        (fun j => by have := hrow j; omega) hcol jList best hmem hb

theorem extendLeftN_bounds (a b : List Char) {alo ahi blo bhi : Nat} :
    ∀ (bi bj bs : Nat), BoundsOk alo ahi blo bhi (bi, bj, bs) →
      BoundsOk alo ahi blo bhi (extendLeftN a b alo blo bi bj bs) := by
  intro bi
  induction bi with
  | zero => intro bj bs hb; exact hb
  | succ bi ih =>
    intro bj bs hb
    rw [extendLeftN]
    by_cases hc : alo < bi + 1 ∧ blo < bj ∧
        a.getD bi ' ' = b.getD (bj - 1) ' '
    · rw [if_pos hc]
      apply ih
      rw [boundsOk_mk] at hb
      rw [boundsOk_mk]
      have hc1 := hc.1
      have hc2 := hc.2.1
      omega
    · rw [if_neg hc]
      exact hb

theorem extendLeft_bounds (a b : List Char) {alo ahi blo bhi : Nat} :
    ∀ m : Nat × Nat × Nat, BoundsOk alo ahi blo bhi m →
      BoundsOk alo ahi blo bhi (extendLeft a b alo blo m) := by
  rintro ⟨bi, bj, bs⟩ hb
  exact extendLeftN_bounds a b bi bj bs hb

theorem extendRightN_bounds (a b : List Char) {alo ahi blo bhi bi bj : Nat} :
    ∀ (fuel bs : Nat), BoundsOk alo ahi blo bhi (bi, bj, bs) →
      BoundsOk alo ahi blo bhi (extendRightN a b ahi bhi bi bj fuel bs) := by
  intro fuel
  induction fuel with
  | zero => intro bs hb; exact hb
  | succ fuel ih =>
    intro bs hb
    rw [extendRightN]
    by_cases hc : bi + bs < ahi ∧ bj + bs < bhi ∧
        a.getD (bi + bs) ' ' = b.getD (bj + bs) ' '
    · rw [if_pos hc]
      apply ih
      rw [boundsOk_mk] at hb
      rw [boundsOk_mk]
      have hc1 := hc.1
      have hc2 := hc.2.1
      omega
    · rw [if_neg hc]
      exact hb

theorem extendRight_bounds (a b : List Char) {alo ahi blo bhi : Nat} :
    ∀ m : Nat × Nat × Nat, BoundsOk alo ahi blo bhi m →
      BoundsOk alo ahi blo bhi (extendRight a b ahi bhi m) := by
  rintro ⟨bi, bj, bs⟩ hb
  exact extendRightN_bounds a b _ bs hb

theorem flm_bounds (bj : Char → List Nat) (a b : List Char)
    {alo ahi blo bhi : Nat} (hab : alo ≤ ahi) (hbb : blo ≤ bhi) :
    BoundsOk alo ahi blo bhi (findLongestMatch bj a b alo ahi blo bhi) := by
  unfold findLongestMatch
  apply extendRight_bounds
  apply extendLeft_bounds
  apply dpRows_bounds bj a (ahi - alo) alo _ _ (le_refl alo) (by omega)
    (fun j => by omega) (fun j => Or.inl rfl)
  rw [boundsOk_mk]
  omega

/-- The sub-interval recursion of get_matching_blocks.  difflib drives
it with an explicit LIFO queue and sorts the collected blocks
afterwards; each queued interval is processed independently, so the
sorted result is the one produced by this recursion (which emits blocks
already in ascending order).  The recursion depth is bounded by the
interval length `ahi - alo`, which the wrapper passes as the structural
counter: when it reaches 0 the interval is empty, so find_longest_match
could only return an empty block and difflib would also stop. -/
def matchBlocksN (bj : Char → List Nat) (a b : List Char) :
    Nat → Nat → Nat → Nat → Nat → List (Nat × Nat × Nat)
  | 0, _, _, _, _ => []
  | fuel + 1, alo, ahi, blo, bhi =>
    let m := findLongestMatch bj a b alo ahi blo bhi
    if 0 < m.2.2 then
      (if alo < m.1 ∧ blo < m.2.1 then
        matchBlocksN bj a b fuel alo m.1 blo m.2.1 else [])
      ++ m ::
      (if m.1 + m.2.2 < ahi ∧ m.2.1 + m.2.2 < bhi then
        matchBlocksN bj a b fuel (m.1 + m.2.2) ahi (m.2.1 + m.2.2) bhi
      else [])
    else []

def matchBlocks (bj : Char → List Nat) (a b : List Char)
    (alo ahi blo bhi : Nat) : List (Nat × Nat × Nat) :=
  matchBlocksN bj a b (ahi - alo) alo ahi blo bhi

/-- Total matched size over a block list. -/
def sumSizes (l : List (Nat × Nat × Nat)) : Nat :=
  (l.map (fun m => m.2.2)).sum

/-- The adjacent-block collapsing loop at the end of
get_matching_blocks ("second coordinate pass"). -/
def nonAdjacent : Nat × Nat × Nat → List (Nat × Nat × Nat) →
    List (Nat × Nat × Nat)
  | (i1, j1, k1), [] => if k1 ≠ 0 then [(i1, j1, k1)] else []
  | (i1, j1, k1), (i2, j2, k2) :: rest =>
    if i1 + k1 = i2 ∧ j1 + k1 = j2 then nonAdjacent (i1, j1, k1 + k2) rest
    else (if k1 ≠ 0 then [(i1, j1, k1)] else []) ++ nonAdjacent (i2, j2, k2) rest

/-- get_matching_blocks(): the collapsed blocks plus the
(len(a), len(b), 0) sentinel. -/
def get_matching_blocks (a b : List Char) : List (Nat × Nat × Nat) :=
  nonAdjacent (0, 0, 0) (matchBlocks (b2j b) a b 0 a.length 0 b.length)
    ++ [(a.length, b.length, 0)]

/-- SequenceMatcher.ratio(): `2.0 * matches / (len(a) + len(b))`, and 1.0
when that denominator is zero. -/
def ratio (a b : List Char) : ℚ :=
  if a.length + b.length = 0 then 1
  else 2 * (sumSizes (get_matching_blocks a b) : ℚ) / (a.length + b.length)

theorem sumSizes_nil : sumSizes [] = 0 := rfl

theorem sumSizes_cons (x : Nat × Nat × Nat) (l : List (Nat × Nat × Nat)) :
    sumSizes (x :: l) = x.2.2 + sumSizes l := by
  simp [sumSizes]

theorem sumSizes_append (l1 l2 : List (Nat × Nat × Nat)) :
    sumSizes (l1 ++ l2) = sumSizes l1 + sumSizes l2 := by
  simp [sumSizes]

theorem matchBlocksN_sum (bj : Char → List Nat) (a b : List Char) :
    ∀ (fuel alo ahi blo bhi : Nat), alo ≤ ahi → blo ≤ bhi →
      sumSizes (matchBlocksN bj a b fuel alo ahi blo bhi) ≤ ahi - alo ∧
      sumSizes (matchBlocksN bj a b fuel alo ahi blo bhi) ≤ bhi - blo := by
  intro fuel
  induction fuel with
  | zero =>
    intro alo ahi blo bhi _ _
    simp [matchBlocksN, sumSizes_nil]
  | succ fuel ih =>
    intro alo ahi blo bhi hab hbb
    rw [matchBlocksN]
    have hb := flm_bounds bj a b hab hbb
    obtain ⟨b1, b2, b3, b4⟩ := hb
    by_cases hk : 0 < (findLongestMatch bj a b alo ahi blo bhi).2.2
    · rw [if_pos hk]
      rw [sumSizes_append, sumSizes_cons]
      have hL : sumSizes (if alo < (findLongestMatch bj a b alo ahi blo bhi).1 ∧
            blo < (findLongestMatch bj a b alo ahi blo bhi).2.1 then
            matchBlocksN bj a b fuel alo
              (findLongestMatch bj a b alo ahi blo bhi).1
              blo (findLongestMatch bj a b alo ahi blo bhi).2.1 else []) ≤
            (findLongestMatch bj a b alo ahi blo bhi).1 - alo ∧
          sumSizes (if alo < (findLongestMatch bj a b alo ahi blo bhi).1 ∧
            blo < (findLongestMatch bj a b alo ahi blo bhi).2.1 then
            matchBlocksN bj a b fuel alo
              (findLongestMatch bj a b alo ahi blo bhi).1
              blo (findLongestMatch bj a b alo ahi blo bhi).2.1 else []) ≤
            (findLongestMatch bj a b alo ahi blo bhi).2.1 - blo := by
        by_cases hl : alo < (findLongestMatch bj a b alo ahi blo bhi).1 ∧
            blo < (findLongestMatch bj a b alo ahi blo bhi).2.1
        · rw [if_pos hl]
          exact ih alo _ blo _ (by omega) (by omega)
        · rw [if_neg hl]
          simp [sumSizes_nil]
      have hR : sumSizes (if (findLongestMatch bj a b alo ahi blo bhi).1 +
            (findLongestMatch bj a b alo ahi blo bhi).2.2 < ahi ∧
            (findLongestMatch bj a b alo ahi blo bhi).2.1 +
            (findLongestMatch bj a b alo ahi blo bhi).2.2 < bhi then
            matchBlocksN bj a b fuel
              ((findLongestMatch bj a b alo ahi blo bhi).1 +
                (findLongestMatch bj a b alo ahi blo bhi).2.2) ahi
              ((findLongestMatch bj a b alo ahi blo bhi).2.1 +
                (findLongestMatch bj a b alo ahi blo bhi).2.2) bhi
            else []) ≤
            ahi - ((findLongestMatch bj a b alo ahi blo bhi).1 +
              (findLongestMatch bj a b alo ahi blo bhi).2.2) ∧
          sumSizes (if (findLongestMatch bj a b alo ahi blo bhi).1 +
            (findLongestMatch bj a b alo ahi blo bhi).2.2 < ahi ∧
            (findLongestMatch bj a b alo ahi blo bhi).2.1 +
            (findLongestMatch bj a b alo ahi blo bhi).2.2 < bhi then
            matchBlocksN bj a b fuel
              ((findLongestMatch bj a b alo ahi blo bhi).1 +
                (findLongestMatch bj a b alo ahi blo bhi).2.2) ahi
              ((findLongestMatch bj a b alo ahi blo bhi).2.1 +
                (findLongestMatch bj a b alo ahi blo bhi).2.2) bhi
            else []) ≤
            bhi - ((findLongestMatch bj a b alo ahi blo bhi).2.1 +
              (findLongestMatch bj a b alo ahi blo bhi).2.2) := by
        by_cases hr : (findLongestMatch bj a b alo ahi blo bhi).1 +
            (findLongestMatch bj a b alo ahi blo bhi).2.2 < ahi ∧
            (findLongestMatch bj a b alo ahi blo bhi).2.1 +
            (findLongestMatch bj a b alo ahi blo bhi).2.2 < bhi
        · rw [if_pos hr]
          exact ih _ ahi _ bhi (by omega) (by omega)
        · rw [if_neg hr]
          simp [sumSizes_nil]
      omega
    · rw [if_neg hk]
      simp [sumSizes_nil]


theorem sumSizes_nonAdjacent :
    ∀ (l : List (Nat × Nat × Nat)) (acc : Nat × Nat × Nat),
      sumSizes (nonAdjacent acc l) = acc.2.2 + sumSizes l := by
  intro l
  induction l with
  | nil =>
    rintro ⟨i1, j1, k1⟩
    rw [nonAdjacent]
    by_cases hk : k1 ≠ 0
    · rw [if_pos hk]; simp [sumSizes]
    · rw [if_neg hk]
      simp only [ne_eq, Decidable.not_not] at hk
      simp [sumSizes, hk]
  | cons x rest ih =>
    rintro ⟨i1, j1, k1⟩
    obtain ⟨i2, j2, k2⟩ := x
    rw [nonAdjacent]
    by_cases hadj : i1 + k1 = i2 ∧ j1 + k1 = j2
    · rw [if_pos hadj, ih]
      simp only [sumSizes_cons]
      omega
    · rw [if_neg hadj, sumSizes_append, ih]
      by_cases hk : k1 ≠ 0
      · rw [if_pos hk]
        simp only [sumSizes_cons, sumSizes_nil]
        omega
      · rw [if_neg hk]
        simp only [ne_eq, Decidable.not_not] at hk
        simp only [sumSizes_cons, sumSizes_nil, hk]

theorem sumSizes_gmb (a b : List Char) :
    sumSizes (get_matching_blocks a b) =
      sumSizes (matchBlocks (b2j b) a b 0 a.length 0 b.length) := by
  unfold get_matching_blocks
  rw [sumSizes_append, sumSizes_nonAdjacent]
  simp [sumSizes]

theorem matches_le (a b : List Char) :
    sumSizes (get_matching_blocks a b) ≤ a.length ∧
      sumSizes (get_matching_blocks a b) ≤ b.length := by
  rw [sumSizes_gmb]
  unfold matchBlocks
  have := matchBlocksN_sum (b2j b) a b (a.length - 0) 0 a.length 0 b.length
    (by omega) (by omega)
  omega

theorem ratio_nonneg (a b : List Char) : 0 ≤ ratio a b := by
  unfold ratio
  by_cases h : a.length + b.length = 0
  · rw [if_pos h]; norm_num
  · rw [if_neg h]
    have hL : (0 : ℚ) < (a.length + b.length : Nat) := by
      exact_mod_cast Nat.pos_of_ne_zero h
    apply div_nonneg
    · positivity
    · push_cast
      push_cast at hL
      linarith

theorem mem_positionsOf {b : List Char} {c : Char} {j : Nat} :
    j ∈ positionsOf b c ↔ j < b.length ∧ b.getD j ' ' = c := by
  unfold positionsOf
  rw [List.mem_filter, List.mem_range]
  simp [beq_iff_eq]

theorem mem_b2j {b : List Char} {c : Char} {j : Nat} :
    j ∈ b2j b c ↔
      ¬ isPopular b c = true ∧ j < b.length ∧ b.getD j ' ' = c := by
  unfold b2j
  by_cases hp : isPopular b c = true
  · simp [hp]
  · simp [hp, mem_positionsOf]

theorem b2j_sorted (b : List Char) (c : Char) :
    (b2j b c).Pairwise (· < ·) := by
  unfold b2j
  by_cases hp : isPopular b c = true
  · simp [hp]
  · rw [if_neg hp]
    exact List.Pairwise.sublist (List.filter_sublist _)
      (List.pairwise_lt_range _)

/-- For the diagonal argument (`a = b = s`): position validity of a DP
cell (i, j): both in range, equal characters, and the character's chain
survives in b2j. -/
def validD (s : List Char) (i j : Nat) : Bool :=
  decide (i < s.length) && decide (j < s.length) &&
    (s.getD i ' ' == s.getD j ' ') &&
    decide (j ∈ b2j s (s.getD j ' '))

/-- The true value of the `j2len` chain cell at row `i`, key `j`, for
`a = b = s`: length of the run of valid cells ending diagonally-shifted
at (i, j). -/
def ch (s : List Char) : Nat → Nat → Nat
  | i, j =>
    if validD s i j then
      (if _h : i = 0 ∨ j = 0 then 0 else ch s (i - 1) (j - 1)) + 1
    else 0
termination_by i j => i
decreasing_by omega

theorem ch_of_not_valid {s : List Char} {i j : Nat}
    (h : ¬ validD s i j = true) : ch s i j = 0 := by
  rw [ch, if_neg h]

theorem ch_of_base {s : List Char} {i j : Nat}
    (h : validD s i j = true) (h0 : i = 0 ∨ j = 0) : ch s i j = 1 := by
  rw [ch, if_pos h, dif_pos h0]

theorem ch_succ {s : List Char} {i j : Nat}
    (h : validD s i j = true) (hi : i ≠ 0) (hj : j ≠ 0) :
    ch s i j = ch s (i - 1) (j - 1) + 1 := by
  rw [ch, if_pos h, dif_neg (by omega : ¬(i = 0 ∨ j = 0))]

theorem validD_fields {s : List Char} {i j : Nat}
    (h : validD s i j = true) :
    i < s.length ∧ j < s.length ∧ s.getD i ' ' = s.getD j ' ' ∧
      j ∈ b2j s (s.getD j ' ') := by
  unfold validD at h
  simp only [Bool.and_eq_true, decide_eq_true_eq, beq_iff_eq] at h
  exact ⟨h.1.1.1, h.1.1.2, h.1.2, h.2⟩

theorem validD_intro {s : List Char} {i j : Nat}
    (h1 : i < s.length) (h2 : j < s.length)
    (h3 : s.getD i ' ' = s.getD j ' ') (h4 : j ∈ b2j s (s.getD j ' ')) :
    validD s i j = true := by
  unfold validD
  simp only [Bool.and_eq_true, decide_eq_true_eq, beq_iff_eq]
  exact ⟨⟨⟨h1, h2⟩, h3⟩, h4⟩

theorem rare_of_eq {s : List Char} {i j : Nat} (hi : i < s.length)
    (heq : s.getD i ' ' = s.getD j ' ') (hj : j ∈ b2j s (s.getD j ' ')) :
    i ∈ b2j s (s.getD i ' ') := by
  rw [heq]
  rcases mem_b2j.mp hj with ⟨hp, _, _⟩
  exact mem_b2j.mpr ⟨hp, hi, heq⟩

theorem validD_diag_left {s : List Char} {i j : Nat}
    (h : validD s i j = true) : validD s i i = true := by
  obtain ⟨h1, _, h3, h4⟩ := validD_fields h
  exact validD_intro h1 h1 rfl (rare_of_eq h1 h3 h4)

theorem validD_diag_right {s : List Char} {i j : Nat}
    (h : validD s i j = true) : validD s j j = true := by
  obtain ⟨_, h2, _, h4⟩ := validD_fields h
  exact validD_intro h2 h2 rfl h4

theorem ch_pos_of_valid {s : List Char} {i : Nat}
    (h : validD s i i = true) : 1 ≤ ch s i i := by
  by_cases h0 : i = 0
  · subst h0; rw [ch_of_base h (Or.inl rfl)]
  · rw [ch_succ h h0 h0]; omega

theorem ch_le_row (s : List Char) : ∀ i j, ch s i j ≤ i + 1 := by
  intro i
  induction i using Nat.strong_induction_on with
  | _ i ih =>
    intro j
    by_cases hv : validD s i j = true
    · by_cases h0 : i = 0 ∨ j = 0
      · rw [ch_of_base hv h0]; omega
      · push_neg at h0
        rw [ch_succ hv h0.1 h0.2]
        have := ih (i - 1) (by omega) (j - 1)
        omega
    · rw [ch_of_not_valid hv]; omega

theorem ch_le_diag_row (s : List Char) : ∀ i j, ch s i j ≤ ch s i i := by
  intro i
  induction i using Nat.strong_induction_on with
  | _ i ih =>
    intro j
    by_cases hv : validD s i j = true
    · have hd := validD_diag_left hv
      by_cases h0 : i = 0 ∨ j = 0
      · rw [ch_of_base hv h0]
        exact ch_pos_of_valid hd
      · push_neg at h0
        rw [ch_succ hv h0.1 h0.2, ch_succ hd h0.1 h0.1]
        have := ih (i - 1) (by omega) (j - 1)
        omega
    · rw [ch_of_not_valid hv]; omega

theorem ch_le_diag_col (s : List Char) : ∀ i j, ch s i j ≤ ch s j j := by
  intro i
  induction i using Nat.strong_induction_on with
  | _ i ih =>
    intro j
    by_cases hv : validD s i j = true
    · have hd := validD_diag_right hv
      by_cases h0 : i = 0 ∨ j = 0
      · rw [ch_of_base hv h0]
        exact ch_pos_of_valid hd
      · push_neg at h0
        rw [ch_succ hv h0.1 h0.2, ch_succ hd h0.2 h0.2]
        have := ih (i - 1) (by omega) (j - 1)
        omega
    · rw [ch_of_not_valid hv]; omega

/-- The `j2len` function passed into row `i` of the DP on `(s, s)`:
empty for the first row, the previous row's chains afterwards. -/
def prevChain (s : List Char) : Nat → Nat → Nat
  | 0, _ => 0
  | i + 1, j => ch s i j

theorem rowK_eq_ch {s : List Char} {i j : Nat} {j2len : Nat → Nat}
    (hj2 : ∀ j, j2len j = prevChain s i j)
    (hv : validD s i j = true) : rowK j2len j = ch s i j := by
  by_cases hj0 : j = 0
  · subst hj0
    rw [rowK_zero, ch_of_base hv (Or.inr rfl)]
  · rw [rowK_succ _ hj0, hj2 (j - 1)]
    cases i with
    | zero => rw [ch_of_base hv (Or.inl rfl)]; rfl
    | succ i' =>
      rw [ch_succ hv (Nat.succ_ne_zero i') hj0]
      rfl

theorem innerBest_self (s : List Char) (i : Nat) (j2len : Nat → Nat)
    (hj2 : ∀ j, j2len j = prevChain s i j) :
    ∀ (js : List Nat) (best : Nat × Nat × Nat),
      js.Pairwise (· < ·) →
      (∀ j ∈ js, validD s i j = true) →
      best.1 = best.2.1 →
      best.1 + best.2.2 ≤ i + 1 →
      (∀ r < i, ch s r r ≤ best.2.2) →
      (ch s i i ≤ best.2.2 ∨ i ∈ js) →
      (innerBest i j2len js best).1 = (innerBest i j2len js best).2.1 ∧
        (innerBest i j2len js best).1 +
          (innerBest i j2len js best).2.2 ≤ i + 1 ∧
        (∀ r < i + 1, ch s r r ≤ (innerBest i j2len js best).2.2) := by
  intro js
  induction js with
  | nil =>
    rintro ⟨bi, bj, bs⟩ _ _ h1 h2 h3 h4
    dsimp only at h1 h2 h3 h4
    rcases h4 with h4 | h4
    · simp only [innerBest]
      refine ⟨h1, h2, ?_⟩
      intro r hr
      rcases Nat.lt_succ_iff_lt_or_eq.mp hr with hr | rfl
      · exact h3 r hr
      · exact h4
    · simp at h4
  | cons j rest ih =>
    rintro ⟨bi, bj, bs⟩ hpw hval h1 h2 h3 h4
    dsimp only at h1 h2 h3 h4
    simp only [innerBest]
    have hvj := hval j (List.mem_cons_self _ _)
    have hk : rowK j2len j = ch s i j := rowK_eq_ch hj2 hvj
    have hpw' := List.Pairwise.of_cons hpw
    have hgt : ∀ x ∈ rest, j < x := (List.pairwise_cons.mp hpw).1
    by_cases hcase : bs < rowK j2len j
    · rw [if_pos hcase]
      rw [hk] at hcase
      have hji : j = i := by
        rcases Nat.lt_trichotomy j i with hlt | heq | hgt2
        · exfalso
          have hc1 := ch_le_diag_col s i j
          have hc2 := h3 j hlt
          omega
        · exact heq
        · exfalso
          have hnotin : i ∉ j :: rest := by
            intro hmem
            rcases List.mem_cons.mp hmem with hmem | hmem
            · omega
            · exact absurd (hgt i hmem) (by omega)
          rcases h4 with h4 | h4
          · have := ch_le_diag_row s i j
            omega
          · exact hnotin h4
      subst hji
      refine ih _ hpw'
        (fun x hx => hval x (List.mem_cons_of_mem _ hx)) rfl ?_ ?_ ?_
      · show j + 1 - rowK j2len j + rowK j2len j ≤ j + 1
        have := ch_le_row s j j
        rw [hk]
        omega
      · intro r hr
        show ch s r r ≤ rowK j2len j
        have := h3 r hr
        rw [hk]
        omega
      · left
        show ch s j j ≤ rowK j2len j
        rw [hk]
    · rw [if_neg hcase]
      refine ih _ hpw'
        (fun x hx => hval x (List.mem_cons_of_mem _ hx)) h1 h2 h3 ?_
      rcases h4 with h4 | h4
      · exact Or.inl h4
      · rcases List.mem_cons.mp h4 with heq | h4
        · left
          subst heq
          dsimp only
          rw [← hk]
          omega
        · exact Or.inr h4

theorem dpRows_self (s : List Char) :
    ∀ (m i : Nat) (j2len : Nat → Nat) (best : Nat × Nat × Nat),
      i + m = s.length →
      (∀ j, j2len j = prevChain s i j) →
      best.1 = best.2.1 →
      best.1 + best.2.2 ≤ i →
      (∀ r < i, ch s r r ≤ best.2.2) →
      (dpRows (b2j s) s 0 s.length (List.range' i m) j2len best).1 =
          (dpRows (b2j s) s 0 s.length (List.range' i m) j2len best).2.1 ∧
        (dpRows (b2j s) s 0 s.length (List.range' i m) j2len best).1 +
          (dpRows (b2j s) s 0 s.length
            (List.range' i m) j2len best).2.2 ≤ s.length := by
  intro m
  induction m with
  | zero =>
    intro i j2len best hi _ h1 h2 _
    simp only [List.range']
    simp only [dpRows]
    exact ⟨h1, by omega⟩
  | succ m ih =>
    intro i j2len best hi hj2 h1 h2 h3
    have hilen : i < s.length := by omega
    rw [List.range'_succ]
    simp only [dpRows]
    set jL := (b2j s (s.getD i ' ')).filter
      (fun j => decide (0 ≤ j) && decide (j < s.length)) with hjL
    have hval : ∀ j ∈ jL, validD s i j = true := by
      intro j hj
      have hmem := List.mem_of_mem_filter hj
      obtain ⟨hp, hjn, hcj⟩ := mem_b2j.mp hmem
      refine validD_intro hilen hjn hcj.symm ?_
      rw [hcj]
      exact hmem
    have hpw : jL.Pairwise (· < ·) :=
      List.Pairwise.sublist (List.filter_sublist _) (b2j_sorted s _)
    have hdisj : ch s i i ≤ best.2.2 ∨ i ∈ jL := by
      by_cases hr : i ∈ b2j s (s.getD i ' ')
      · right
        rw [hjL]
        refine List.mem_filter.mpr ⟨hr, ?_⟩
        simp [hilen]
      · left
        have hnv : ¬ validD s i i = true := by
          intro hv
          exact hr (validD_fields hv).2.2.2
        rw [ch_of_not_valid hnv]
        omega
    have hinner := innerBest_self s i j2len hj2 jL best hpw hval h1
      (by omega) h3 hdisj
    have hnew : ∀ j, newJ2len jL j2len j = prevChain s (i + 1) j := by
      intro j
      show newJ2len jL j2len j = ch s i j
      unfold newJ2len
      by_cases hin : j ∈ jL
      · rw [if_pos hin]
        exact rowK_eq_ch hj2 (hval j hin)
      · rw [if_neg hin]
        have hnv : ¬ validD s i j = true := by
          intro hv
          obtain ⟨_, hjn, hcij, hrj⟩ := validD_fields hv
          apply hin
          rw [hjL]
          refine List.mem_filter.mpr ⟨?_, by simp [hjn]⟩
          rw [← hcij] at hrj
          exact hrj
        rw [ch_of_not_valid hnv]
    exact ih (i + 1) (newJ2len jL j2len) (innerBest i j2len jL best)
      (by omega) hnew hinner.1 hinner.2.1 hinner.2.2

theorem extendLeft_diag (s : List Char) :
    ∀ (d k : Nat), extendLeftN s s 0 0 d d k = (0, 0, k + d) := by
  intro d
  induction d with
  | zero =>
    intro k
    rw [extendLeftN, Nat.add_zero]
  | succ d ih =>
    intro k
    rw [extendLeftN, if_pos ⟨Nat.succ_pos d, Nat.succ_pos d, rfl⟩]
    have hs : d + 1 - 1 = d := rfl
    rw [hs, ih (k + 1)]
    have : k + 1 + d = k + (d + 1) := by omega
    rw [this]

theorem extendRight_diag (s : List Char) (n : Nat) :
    ∀ (fuel k : Nat), n - k ≤ fuel → k ≤ n →
      extendRightN s s n n 0 0 fuel k = (0, 0, n) := by
  intro fuel
  induction fuel with
  | zero =>
    intro k hm hk
    have : k = n := by omega
    subst this
    rw [extendRightN]
  | succ fuel ih =>
    intro k hm hk
    by_cases hlt : k < n
    · rw [extendRightN, if_pos ⟨by omega, by omega, rfl⟩]
      exact ih (k + 1) (by omega) (by omega)
    · have : k = n := by omega
      subst this
      rw [extendRightN, if_neg (by omega)]

theorem flm_self (s : List Char) :
    findLongestMatch (b2j s) s s 0 s.length 0 s.length =
      (0, 0, s.length) := by
  unfold findLongestMatch
  rw [Nat.sub_zero]
  have hdp := dpRows_self s s.length 0 (fun _ => 0) (0, 0, 0)
    (by omega) (fun j => rfl) rfl (by dsimp only; omega)
    (fun r hr => absurd hr (Nat.not_lt_zero r))
  rcases hE : dpRows (b2j s) s 0 s.length (List.range' 0 s.length)
      (fun _ => 0) (0, 0, 0) with ⟨d, e, k⟩
  rw [hE] at hdp
  obtain ⟨hde, hdk⟩ := hdp
  simp only at hde hdk
  subst hde
  show extendRight s s s.length s.length
    (extendLeft s s 0 0 (d, d, k)) = (0, 0, s.length)
  unfold extendLeft
  dsimp only
  rw [extendLeft_diag s d k]
  unfold extendRight
  dsimp only
  exact extendRight_diag s s.length (s.length - (0 + (k + d))) (k + d)
    (by omega) (by omega)

theorem matchBlocks_self (s : List Char) (hs : s ≠ []) :
    matchBlocks (b2j s) s s 0 s.length 0 s.length =
      [(0, 0, s.length)] := by
  have hn : 0 < s.length := List.length_pos.mpr hs
  unfold matchBlocks
  rw [Nat.sub_zero]
  rcases hL : s.length with _ | f
  · omega
  · rw [matchBlocksN]
    rw [← hL]
    simp only [flm_self]
    rw [if_pos hn]
    rw [if_neg (by simp), if_neg (by simp)]
    rfl

theorem ratio_self (s : List Char) (hs : s ≠ []) : ratio s s = 1 := by
  have hn : 0 < s.length := List.length_pos.mpr hs
  unfold ratio
  rw [if_neg (by omega)]
  have hsum : sumSizes (get_matching_blocks s s) = s.length := by
    rw [sumSizes_gmb, matchBlocks_self s hs]
    simp [sumSizes]
  rw [hsum]
  have hq : (0 : ℚ) < (s.length : ℚ) := by exact_mod_cast hn
  rw [div_eq_one_iff_eq (by linarith)]
  ring

theorem ratio_le_one (a b : List Char) : ratio a b ≤ 1 := by
  unfold ratio
  by_cases h : a.length + b.length = 0
  · rw [if_pos h]
  · rw [if_neg h]
    have hM := matches_le a b
    have hL : (0 : ℚ) < ((a.length + b.length : Nat) : ℚ) := by
      exact_mod_cast Nat.pos_of_ne_zero h
    rw [div_le_one (by push_cast at hL ⊢; linarith)]
    push_cast
    have h2 : 2 * sumSizes (get_matching_blocks a b) ≤ a.length + b.length := by
      omega
    exact_mod_cast h2

end Difflib

/-- similarity_ratio from src/__init__.py: 0.0 on an empty argument,
otherwise SequenceMatcher(a=a, b=b).ratio(). -/
def similarity_ratio (a b : List Char) : ℚ :=
  if a = [] ∨ b = [] then 0 else Difflib.ratio a b

/-- The external collaborators of the engine: `re.compile(p, IGNORECASE)`
(`none` models a compile exception on an invalid pattern, `some f` the
compiled case-insensitive searcher, where `f c = true` means
`compiled.search(c)` is a match), and `pypinyin.lazy_pinyin` with its
availability flag (`none` models an internal exception). -/
structure Ext where
  compile : List Char → Option (List Char → Bool)
  pinyinAvail : Bool
  lazyPinyin : List Char → Option (List (List Char))
  lazyPinyinFirst : List Char → Option (List (List Char))

/-- text_to_pinyin from src/__init__.py: empty when pypinyin is missing
or the input is empty, otherwise the joined lazy_pinyin segments, with
any exception swallowed to the empty string. -/
def text_to_pinyin (E : Ext) (text : List Char) : List Char :=
  if ¬ E.pinyinAvail = true ∨ text = [] then []
  else
    match E.lazyPinyin text with
    | none => []
    | some segs => segs.join

/-- text_to_pinyin_initials from src/__init__.py: as text_to_pinyin but
joining the FIRST_LETTER style segments. -/
def text_to_pinyin_initials (E : Ext) (text : List Char) : List Char :=
  if ¬ E.pinyinAvail = true ∨ text = [] then []
  else
    match E.lazyPinyinFirst text with
    | none => []
    | some segs => segs.join

/-- try_regex_match from src/__init__.py: false on the empty pattern,
false when compilation fails, otherwise true iff the compiled pattern
search-matches some non-empty candidate (empty candidates skipped; the
early return on first match returns the same value as `any`). -/
def try_regex_match (E : Ext) (pattern : List Char)
    (candidates : List (List Char)) : Bool :=
  if pattern = [] then false
  else
    match E.compile pattern with
    | none => false
    | some f => candidates.any (fun c => !c.isEmpty && f c)

/-- Needle is a prefix of hay. -/
def startsWith : List Char → List Char → Bool
  | [], _ => true
  | _ :: _, [] => false
  | c :: cs, d :: ds => c == d && startsWith cs ds

/-- The Python substring test `needle in hay`: needle occurs
contiguously in hay. -/
def isSubstr (needle : List Char) : List Char → Bool
  | [] => needle.isEmpty
  | d :: rest => startsWith needle (d :: rest) || isSubstr needle rest

/-- compute_match_score from src/__init__.py.  The Python code
accumulates `score += w` over the six signals starting from 0.0; the sum
below lists the addends in the same order.  The decimal weights are the
exact rationals 1.2, 1.0, 0.9, 0.85, 0.8, 0.6, 0.5. -/
def compute_match_score (E : Ext) (query title : List Char) : ℚ :=
  if query = [] ∨ title = [] then 0
  else
    let q_norm := normalize_text query
    let t_norm := normalize_text title
    let q_py := text_to_pinyin E query
    let t_py := text_to_pinyin E title
    let q_ini := text_to_pinyin_initials E query
    let t_ini := text_to_pinyin_initials E title
    (if try_regex_match E query [title, t_norm, t_py] then 6/5 else 0)
    + (if q_norm ≠ [] ∧ isSubstr q_norm t_norm then 1 else 0)
    + (if q_py ≠ [] ∧ isSubstr q_py t_py then 9/10 else 0)
    + (if q_ini ≠ [] ∧ isSubstr q_ini t_ini then 17/20 else 0)
    + similarity_ratio q_norm t_norm * (4/5)
    + similarity_ratio q_py t_py * (3/5)
    + similarity_ratio q_ini t_ini * (1/2)

/-- The catalog: `music_files` as a snapshot.  `load_music_files` builds
the dict with consecutive keys 0, 1, 2, ... in insertion order, so a
snapshot is a list of titles with the index given by position. -/
def scoreAll (E : Ext) (catalog : List (List Char))
    (query : List Char) : List (Nat × ℚ) :=
  catalog.enum.map (fun p => (p.1, compute_match_score E query p.2))

/-- Stable insertion into a descending-by-score list: the inserted
element comes from earlier in the input than the list elements, so on
equal scores it goes first. -/
def insertDesc (x : Nat × ℚ) : List (Nat × ℚ) → List (Nat × ℚ)
  | [] => [x]
  | y :: ys => if y.2 > x.2 then y :: insertDesc x ys else x :: y :: ys

/-- `scored.sort(key=lambda x: x[1], reverse=True)`: Python's sort is
stable and `reverse=True` keeps equal-key elements in input order, and a
stable sort's output is determined by the key, so stable insertion sort
renders it exactly. -/
def sortScored : List (Nat × ℚ) → List (Nat × ℚ)
  | [] => []
  | x :: xs => insertDesc x (sortScored xs)

/-- The sorted scored list built by handle_search before filtering. -/
def scoredSorted (E : Ext) (catalog : List (List Char))
    (query : List Char) : List (Nat × ℚ) :=
  sortScored (scoreAll E catalog query)

/-- The ranking steps of handle_search (lines 634-648): score all
titles, sort descending, filter by the 0.25 threshold, truncate to 10,
and fall back to the unfiltered top 10 when the filter empties. -/
def handle_search_rank (E : Ext) (catalog : List (List Char))
    (query : List Char) : List (Nat × ℚ) :=
  let top := ((scoredSorted E catalog query).filter
    (fun x => decide ((1/4 : ℚ) ≤ x.2))).take 10
  if top = [] then (scoredSorted E catalog query).take 10 else top

/-- Python str.isdigit restricted to ASCII digits (the repository's
queries; a non-empty all-digit string). -/
def isDigitStr (q : List Char) : Bool :=
  !q.isEmpty && q.all (fun c => decide ('0' ≤ c ∧ c ≤ '9'))

/-- int(query) for an ASCII digit string. -/
def strToNat (q : List Char) : Nat :=
  q.foldl (fun acc c => acc * 10 + (c.toNat - ('0').toNat)) 0

/-- The observable outcomes of the handle_search handler. -/
inductive SearchOutcome where
  | usageError : SearchOutcome
  | exact : Nat → List Char → SearchOutcome
  | ranked : List (Nat × ℚ) → SearchOutcome
deriving DecidableEq

/-- handle_search (lines 615-663) after the command-word stripping: an
empty query is a usage error; a pure-digit query whose value is a key of
music_files short-circuits to the exact match; otherwise (including a
digit query whose index is absent) fuzzy ranking runs on the query
text. -/
def handle_search (E : Ext) (catalog : List (List Char))
    (query : List Char) : SearchOutcome :=
  if query = [] then .usageError
  else if isDigitStr query ∧ strToNat query < catalog.length then
    .exact (strToNat query) (catalog.getD (strToNat query) [])
  else .ranked (handle_search_rank E catalog query)

theorem similarity_ratio_nonneg (a b : List Char) :
    0 ≤ similarity_ratio a b := by
  unfold similarity_ratio
  by_cases h : a = [] ∨ b = []
  · rw [if_pos h]
  · rw [if_neg h]
    exact Difflib.ratio_nonneg a b

theorem similarity_ratio_le_one (a b : List Char) :
    similarity_ratio a b ≤ 1 := by
  unfold similarity_ratio
  by_cases h : a = [] ∨ b = []
  · rw [if_pos h]; norm_num
  · rw [if_neg h]
    exact Difflib.ratio_le_one a b

theorem compute_match_score_eq (E : Ext) (q t : List Char)
    (hq : q ≠ []) (ht : t ≠ []) :
    compute_match_score E q t =
      (if try_regex_match E q [t, normalize_text t, text_to_pinyin E t]
        then 6/5 else 0)
      + (if normalize_text q ≠ [] ∧
          isSubstr (normalize_text q) (normalize_text t) then 1 else 0)
      + (if text_to_pinyin E q ≠ [] ∧
          isSubstr (text_to_pinyin E q) (text_to_pinyin E t)
          then 9/10 else 0)
      + (if text_to_pinyin_initials E q ≠ [] ∧
          isSubstr (text_to_pinyin_initials E q)
            (text_to_pinyin_initials E t) then 17/20 else 0)
      + similarity_ratio (normalize_text q) (normalize_text t) * (4/5)
      + similarity_ratio (text_to_pinyin E q) (text_to_pinyin E t) * (3/5)
      + similarity_ratio (text_to_pinyin_initials E q)
          (text_to_pinyin_initials E t) * (1/2) := by
  unfold compute_match_score
  rw [if_neg (by tauto)]

/-- A fully degraded external environment: regex compilation fails and
pypinyin is unavailable. -/
def extNone : Ext :=
  ⟨fun _ => none, false, fun _ => none, fun _ => none⟩

/-- An external environment whose regex engine is substring search and
whose transliteration is the identity segmentation. -/
def extSome : Ext :=
  ⟨fun p => some (fun c => isSubstr p c), true,
   fun t => some [t], fun t => some [t.take 1]⟩

/-- C1: for non-empty query and title the match score is the sum of the
six signals (regex +1.2; normalized substring +1.0; transliteration
substring +0.9; initials substring +0.85; similarity terms weighted
0.8, 0.6, 0.5), and it is exactly 0 when either input is empty. -/
theorem C1_score_formula (E : Ext) (q t : List Char) :
    (q ≠ [] → t ≠ [] →
      compute_match_score E q t =
        (if try_regex_match E q [t, normalize_text t, text_to_pinyin E t]
          then 6/5 else 0)
        + (if normalize_text q ≠ [] ∧
            isSubstr (normalize_text q) (normalize_text t) then 1 else 0)
        + (if text_to_pinyin E q ≠ [] ∧
            isSubstr (text_to_pinyin E q) (text_to_pinyin E t)
            then 9/10 else 0)
        + (if text_to_pinyin_initials E q ≠ [] ∧
            isSubstr (text_to_pinyin_initials E q)
              (text_to_pinyin_initials E t) then 17/20 else 0)
        + similarity_ratio (normalize_text q) (normalize_text t) * (4/5)
        + similarity_ratio (text_to_pinyin E q) (text_to_pinyin E t)
            * (3/5)
        + similarity_ratio (text_to_pinyin_initials E q)
            (text_to_pinyin_initials E t) * (1/2)) ∧
    ((q = [] ∨ t = []) → compute_match_score E q t = 0) := by
  constructor
  · intro hq ht
    exact compute_match_score_eq E q t hq ht
  · intro h
    unfold compute_match_score
    rw [if_pos h]

theorem C1_score_formula_witness :
    compute_match_score extNone ['a'] ['a'] =
      (if try_regex_match extNone ['a']
          [['a'], normalize_text ['a'], text_to_pinyin extNone ['a']]
        then 6/5 else 0)
      + (if normalize_text ['a'] ≠ [] ∧
          isSubstr (normalize_text ['a']) (normalize_text ['a'])
          then 1 else 0)
      + (if text_to_pinyin extNone ['a'] ≠ [] ∧
          isSubstr (text_to_pinyin extNone ['a'])
            (text_to_pinyin extNone ['a']) then 9/10 else 0)
      + (if text_to_pinyin_initials extNone ['a'] ≠ [] ∧
          isSubstr (text_to_pinyin_initials extNone ['a'])
            (text_to_pinyin_initials extNone ['a']) then 17/20 else 0)
      + similarity_ratio (normalize_text ['a']) (normalize_text ['a'])
          * (4/5)
      + similarity_ratio (text_to_pinyin extNone ['a'])
          (text_to_pinyin extNone ['a']) * (3/5)
      + similarity_ratio (text_to_pinyin_initials extNone ['a'])
          (text_to_pinyin_initials extNone ['a']) * (1/2) ∧
    compute_match_score extNone [] ['a'] = 0 :=
  ⟨(C1_score_formula extNone ['a'] ['a']).1 (by decide) (by decide),
   (C1_score_formula extNone [] ['a']).2 (Or.inl rfl)⟩

/-- C5: the similarity scorer returns 0 when either input is empty,
returns exactly 1 on any non-empty string compared with itself, and its
value always lies in [0, 1]. -/
theorem C5_similarity (a b : List Char) :
    ((a = [] ∨ b = []) → similarity_ratio a b = 0) ∧
    (a ≠ [] → similarity_ratio a a = 1) ∧
    0 ≤ similarity_ratio a b ∧ similarity_ratio a b ≤ 1 := by
  refine ⟨?_, ?_, similarity_ratio_nonneg a b, similarity_ratio_le_one a b⟩
  · intro h
    unfold similarity_ratio
    rw [if_pos h]
  · intro ha
    unfold similarity_ratio
    rw [if_neg (by tauto)]
    exact Difflib.ratio_self a ha

theorem C5_similarity_witness :
    similarity_ratio ['a'] [] = 0 ∧ similarity_ratio ['a'] ['a'] = 1 :=
  ⟨(C5_similarity ['a'] []).1 (Or.inr rfl),
   (C5_similarity ['a'] ['a']).2.1 (by decide)⟩

/-- C6: the regex prober returns false on the empty pattern, returns
false when compilation fails, and otherwise returns true exactly when
the compiled case-insensitive pattern search-matches some non-empty
candidate (empty candidates are skipped); it is total by construction. -/
theorem C6_regex_prober (E : Ext) (p : List Char)
    (cs : List (List Char)) :
    (p = [] → try_regex_match E p cs = false) ∧
    (E.compile p = none → try_regex_match E p cs = false) ∧
    (∀ f, E.compile p = some f → p ≠ [] →
      (try_regex_match E p cs = true ↔
        ∃ c ∈ cs, c ≠ [] ∧ f c = true)) := by
  refine ⟨?_, ?_, ?_⟩
  · intro h
    unfold try_regex_match
    rw [if_pos h]
  · intro h
    unfold try_regex_match
    by_cases hp : p = []
    · rw [if_pos hp]
    · rw [if_neg hp, h]
  · intro f hf hp
    unfold try_regex_match
    rw [if_neg hp, hf]
    rw [List.any_eq_true]
    constructor
    · rintro ⟨c, hc, hcc⟩
      simp only [Bool.and_eq_true, Bool.not_eq_true'] at hcc
      refine ⟨c, hc, ?_, hcc.2⟩
      intro hnil
      rw [hnil] at hcc
      simp at hcc
    · rintro ⟨c, hc, hne, hfc⟩
      refine ⟨c, hc, ?_⟩
      simp only [Bool.and_eq_true, Bool.not_eq_true']
      exact ⟨by simpa [List.isEmpty_iff] using hne, hfc⟩

theorem C6_regex_prober_witness :
    (try_regex_match extSome ['a'] [['b', 'a']] = true ↔
      ∃ c ∈ [['b', 'a']], c ≠ [] ∧ isSubstr ['a'] c = true) ∧
    try_regex_match extNone ['a'] [['a']] = false :=
  ⟨(C6_regex_prober extSome ['a'] [['b', 'a']]).2.2
      (fun c => isSubstr ['a'] c) rfl (by decide),
   (C6_regex_prober extNone ['a'] [['a']]).2.1 rfl⟩

/-- C7: the text normalizer is idempotent, its output contains no
whitespace, and an empty input yields an empty output. -/
theorem C7_normalize (t : List Char) :
    normalize_text (normalize_text t) = normalize_text t ∧
    (∀ c ∈ normalize_text t, isPySpace c = false) ∧
    (t = [] → normalize_text t = []) := by
  refine ⟨normalize_text_idem t, normalize_text_no_space t, ?_⟩
  intro h
  rw [h]
  rfl

theorem C7_normalize_witness :
    isPySpace 'a' = false ∧ normalize_text ([] : List Char) = [] :=
  ⟨(C7_normalize ['A', '!', 'a']).2.1 'a' (by decide),
   (C7_normalize []).2.2 rfl⟩

/-- C9: the transliteration mapper degrades to empty output: both
directions return the empty string whenever pypinyin is unavailable, and
an internal transliteration failure also yields the empty string. -/
theorem C9_pinyin_total (E : Ext) (t : List Char) :
    (E.pinyinAvail = false →
      text_to_pinyin E t = [] ∧ text_to_pinyin_initials E t = []) ∧
    (E.lazyPinyin t = none → text_to_pinyin E t = []) ∧
    (E.lazyPinyinFirst t = none → text_to_pinyin_initials E t = []) := by
  refine ⟨?_, ?_, ?_⟩
  · intro h
    constructor
    · unfold text_to_pinyin
      rw [if_pos (Or.inl (by simp [h]))]
    · unfold text_to_pinyin_initials
      rw [if_pos (Or.inl (by simp [h]))]
  · intro h
    unfold text_to_pinyin
    by_cases hc : ¬ E.pinyinAvail = true ∨ t = []
    · rw [if_pos hc]
    · rw [if_neg hc, h]
  · intro h
    unfold text_to_pinyin_initials
    by_cases hc : ¬ E.pinyinAvail = true ∨ t = []
    · rw [if_pos hc]
    · rw [if_neg hc, h]

theorem C9_pinyin_total_witness :
    (text_to_pinyin extNone ['a'] = [] ∧
      text_to_pinyin_initials extNone ['a'] = []) ∧
    text_to_pinyin extNone ['b'] = [] :=
  ⟨(C9_pinyin_total extNone ['a']).1 rfl,
   (C9_pinyin_total extNone ['b']).2.1 rfl⟩

theorem insertDesc_length (x : Nat × ℚ) :
    ∀ l : List (Nat × ℚ), (insertDesc x l).length = l.length + 1 := by
  intro l
  induction l with
  | nil => rfl
  | cons y ys ih =>
    rw [insertDesc]
    by_cases hc : y.2 > x.2
    · rw [if_pos hc]
      simp [ih]
    · rw [if_neg hc]
      simp

theorem sortScored_length :
    ∀ l : List (Nat × ℚ), (sortScored l).length = l.length := by
  intro l
  induction l with
  | nil => rfl
  | cons x xs ih =>
    rw [sortScored, insertDesc_length, ih]
    rfl

theorem scoredSorted_length (E : Ext) (cat : List (List Char))
    (q : List Char) : (scoredSorted E cat q).length = cat.length := by
  unfold scoredSorted scoreAll
  rw [sortScored_length, List.length_map, List.enum_length]

theorem insertDesc_mem (x y : Nat × ℚ) :
    ∀ l : List (Nat × ℚ), (y ∈ insertDesc x l ↔ y = x ∨ y ∈ l) := by
  intro l
  induction l with
  | nil => simp [insertDesc]
  | cons z zs ih =>
    rw [insertDesc]
    by_cases hc : z.2 > x.2
    · rw [if_pos hc]
      simp only [List.mem_cons, ih]
      tauto
    · rw [if_neg hc]
      simp only [List.mem_cons]

theorem sortScored_mem (y : Nat × ℚ) :
    ∀ l : List (Nat × ℚ), (y ∈ sortScored l ↔ y ∈ l) := by
  intro l
  induction l with
  | nil => simp [sortScored]
  | cons x xs ih =>
    rw [sortScored, insertDesc_mem]
    simp only [List.mem_cons, ih]

/-- The ordering produced by the ranking: strictly greater score first,
equal scores in ascending index order. -/
def rankedBefore (x y : Nat × ℚ) : Prop :=
  y.2 < x.2 ∨ (x.2 = y.2 ∧ x.1 < y.1)

theorem insertDesc_pairwise (x : Nat × ℚ) :
    ∀ l : List (Nat × ℚ), l.Pairwise rankedBefore →
      (∀ y ∈ l, x.2 = y.2 → x.1 < y.1) →
      (insertDesc x l).Pairwise rankedBefore := by
  intro l
  induction l with
  | nil =>
    intro _ _
    exact List.pairwise_singleton _ _
  | cons y ys ih =>
    intro hpw hx
    rw [insertDesc]
    by_cases hc : y.2 > x.2
    · rw [if_pos hc]
      rw [List.pairwise_cons]
      constructor
      · intro z hz
        rcases (insertDesc_mem x z ys).mp hz with rfl | hz
        · exact Or.inl hc
        · exact (List.pairwise_cons.mp hpw).1 z hz
      · exact ih (List.Pairwise.of_cons hpw)
          (fun z hz he => hx z (List.mem_cons_of_mem _ hz) he)
    · rw [if_neg hc]
      push_neg at hc
      rw [List.pairwise_cons]
      constructor
      · intro z hz
        rcases List.mem_cons.mp hz with rfl | hz
        · rcases lt_or_eq_of_le hc with hlt | heq
          · exact Or.inl hlt
          · exact Or.inr ⟨heq.symm, hx z (List.mem_cons_self _ _) heq.symm⟩
        · rcases (List.pairwise_cons.mp hpw).1 z hz with hlt | ⟨heq, hidx⟩
          · exact Or.inl (lt_of_lt_of_le hlt hc)
          · rcases lt_or_eq_of_le hc with hlt2 | heq2
            · exact Or.inl (heq ▸ hlt2)
            · refine Or.inr ⟨by rw [← heq2, heq], ?_⟩
              exact hx z (List.mem_cons_of_mem _ hz) (by rw [← heq2, heq])
      · exact hpw

theorem sortScored_pairwise :
    ∀ l : List (Nat × ℚ),
      l.Pairwise (fun x y => x.2 = y.2 → x.1 < y.1) →
      (sortScored l).Pairwise rankedBefore := by
  intro l
  induction l with
  | nil => intro _; exact List.Pairwise.nil
  | cons x xs ih =>
    intro hpw
    rw [sortScored]
    refine insertDesc_pairwise x _ (ih (List.Pairwise.of_cons hpw)) ?_
    intro y hy he
    exact (List.pairwise_cons.mp hpw).1 y
      ((sortScored_mem y xs).mp hy) he

theorem le_fst_of_mem_enumFrom :
    ∀ {l : List (List Char)} {k : Nat} {p : Nat × List Char},
      p ∈ List.enumFrom k l → k ≤ p.1 := by
  intro l
  induction l with
  | nil => intro k p h; simp [List.enumFrom] at h
  | cons x xs ih =>
    intro k p h
    rw [List.enumFrom] at h
    rcases List.mem_cons.mp h with rfl | h
    · exact le_refl _
    · exact Nat.le_of_succ_le (ih h)

theorem pairwise_fst_lt_enumFrom :
    ∀ (l : List (List Char)) (k : Nat),
      (List.enumFrom k l).Pairwise (fun x y => x.1 < y.1) := by
  intro l
  induction l with
  | nil => intro k; exact List.Pairwise.nil
  | cons x xs ih =>
    intro k
    rw [List.enumFrom, List.pairwise_cons]
    exact ⟨fun p hp => lt_of_lt_of_le (Nat.lt_succ_self k)
      (le_fst_of_mem_enumFrom hp), ih (k + 1)⟩

theorem scoredSorted_pairwise (E : Ext) (cat : List (List Char))
    (q : List Char) : (scoredSorted E cat q).Pairwise rankedBefore := by
  unfold scoredSorted scoreAll
  apply sortScored_pairwise
  rw [List.pairwise_map]
  have henum : (cat.enum).Pairwise (fun x y => x.1 < y.1) :=
    pairwise_fst_lt_enumFrom cat 0
  refine henum.imp ?_
  intro a b h
  exact fun _ => h

/-- C2: for a non-empty catalog the ranked result has between 1 and
min(cap, catalog size) entries (cap = 10); for an empty catalog it is
empty. -/
theorem C2_result_size (E : Ext) (cat : List (List Char))
    (q : List Char) :
    (cat ≠ [] →
      1 ≤ (handle_search_rank E cat q).length ∧
      (handle_search_rank E cat q).length ≤ min 10 cat.length) ∧
    (cat = [] → handle_search_rank E cat q = []) := by
  have hlen := scoredSorted_length E cat q
  constructor
  · intro hne
    have hn : 0 < cat.length := List.length_pos.mpr hne
    unfold handle_search_rank
    by_cases htop : ((scoredSorted E cat q).filter
        (fun x => decide ((1/4 : ℚ) ≤ x.2))).take 10 = []
    · rw [if_pos htop]
      rw [List.length_take, hlen]
      constructor
      · omega
      · exact le_refl _
    · rw [if_neg htop]
      have h1 : 0 < (((scoredSorted E cat q).filter
          (fun x => decide ((1/4 : ℚ) ≤ x.2))).take 10).length :=
        List.length_pos.mpr htop
      have h2 := List.length_take 10 ((scoredSorted E cat q).filter
        (fun x => decide ((1/4 : ℚ) ≤ x.2)))
      have h3 := List.length_filter_le
        (fun x => decide ((1/4 : ℚ) ≤ x.2)) (scoredSorted E cat q)
      constructor
      · omega
      · rw [h2] at h1 ⊢
        simp only [min_le_iff] at h1 ⊢
        omega
  · intro hcat
    subst hcat
    have h0 : scoredSorted E [] q = [] := by
      have := scoredSorted_length E [] q
      exact List.length_eq_zero.mp this
    unfold handle_search_rank
    rw [h0]
    rfl

theorem C2_result_size_witness :
    1 ≤ (handle_search_rank extNone [['a']] ['a']).length ∧
    (handle_search_rank extNone [['a']] ['a']).length ≤
      min 10 ([['a']] : List (List Char)).length :=
  (C2_result_size extNone [['a']] ['a']).1 (by decide)

/-- C3: when some candidate reaches the 0.25 threshold the result is
exactly the first 10 entries of the sorted list that pass the filter
(so every returned score is at least 0.25); when every candidate is
below the threshold the filter is ignored and the first 10 entries of
the unfiltered sorted list are returned. -/
theorem C3_threshold (E : Ext) (cat : List (List Char))
    (q : List Char) :
    ((∃ x ∈ scoredSorted E cat q, (1/4 : ℚ) ≤ x.2) →
      handle_search_rank E cat q =
        ((scoredSorted E cat q).filter
          (fun x => decide ((1/4 : ℚ) ≤ x.2))).take 10 ∧
      ∀ y ∈ handle_search_rank E cat q, (1/4 : ℚ) ≤ y.2) ∧
    ((∀ x ∈ scoredSorted E cat q, x.2 < 1/4) → cat ≠ [] →
      handle_search_rank E cat q = (scoredSorted E cat q).take 10) := by
  constructor
  · rintro ⟨x, hx, hxs⟩
    have hfil : x ∈ (scoredSorted E cat q).filter
        (fun y => decide ((1/4 : ℚ) ≤ y.2)) :=
      List.mem_filter.mpr ⟨hx, by simpa using hxs⟩
    have hne : (scoredSorted E cat q).filter
        (fun y => decide ((1/4 : ℚ) ≤ y.2)) ≠ [] := by
      intro h
      rw [h] at hfil
      exact List.not_mem_nil x hfil
    have htop : ((scoredSorted E cat q).filter
        (fun y => decide ((1/4 : ℚ) ≤ y.2))).take 10 ≠ [] := by
      rw [ne_eq, List.take_eq_nil_iff]
      push_neg
      exact ⟨by omega, hne⟩
    constructor
    · unfold handle_search_rank
      rw [if_neg htop]
    · intro y hy
      unfold handle_search_rank at hy
      rw [if_neg htop] at hy
      have := List.of_mem_filter (List.take_subset _ _ hy)
      simpa using this
  · intro hall _
    have hfil : (scoredSorted E cat q).filter
        (fun y => decide ((1/4 : ℚ) ≤ y.2)) = [] := by
      rw [List.filter_eq_nil_iff]
      intro a ha
      simpa using not_le.mpr (hall a ha)
    unfold handle_search_rank
    rw [hfil]
    rfl

theorem C3_threshold_witness :
    handle_search_rank extNone [['a']] ['a'] =
      ((scoredSorted extNone [['a']] ['a']).filter
        (fun x => decide ((1/4 : ℚ) ≤ x.2))).take 10 ∧
    ∀ y ∈ handle_search_rank extNone [['a']] ['a'], (1/4 : ℚ) ≤ y.2 :=
  (C3_threshold extNone [['a']] ['a']).1
    ⟨(0, compute_match_score extNone ['a'] ['a']),
      of_decide_eq_true (by with_unfolding_all rfl),
      of_decide_eq_true (by with_unfolding_all rfl)⟩

/-- C4: the ranked result is sorted by score descending, and candidates
with equal score appear in ascending catalog-index order. -/
theorem C4_sorted (E : Ext) (cat : List (List Char)) (q : List Char) :
    (handle_search_rank E cat q).Pairwise
      (fun x y => y.2 < x.2 ∨ (x.2 = y.2 ∧ x.1 < y.1)) := by
  have hP := scoredSorted_pairwise E cat q
  unfold handle_search_rank
  by_cases htop : ((scoredSorted E cat q).filter
      (fun x => decide ((1/4 : ℚ) ≤ x.2))).take 10 = []
  · rw [if_pos htop]
    exact List.Pairwise.sublist (List.take_sublist _ _) hP
  · rw [if_neg htop]
    exact List.Pairwise.sublist
      ((List.take_sublist _ _).trans (List.filter_sublist _)) hP

/-- C8: a query of digits whose value is an existing index is answered
by the exact-match short-circuit, and fuzzy ranking is not performed;
when the index does not exist the handler falls through to normal fuzzy
ranking on the digit string itself. -/
theorem C8_digit_query (E : Ext) (cat : List (List Char))
    (q : List Char) (hd : isDigitStr q = true) :
    (strToNat q < cat.length →
      handle_search E cat q =
        .exact (strToNat q) (cat.getD (strToNat q) [])) ∧
    (¬ strToNat q < cat.length →
      handle_search E cat q = .ranked (handle_search_rank E cat q)) := by
  have hq : q ≠ [] := by
    intro h
    rw [h] at hd
    simp [isDigitStr] at hd
  constructor
  · intro hidx
    unfold handle_search
    rw [if_neg hq, if_pos ⟨hd, hidx⟩]
  · intro hidx
    unfold handle_search
    rw [if_neg hq, if_neg (by tauto)]

theorem C8_digit_query_witness :
    handle_search extNone [['x']] ['0'] =
      .exact (strToNat ['0']) ([['x']].getD (strToNat ['0']) []) ∧
    handle_search extNone [['x']] ['7'] =
      .ranked (handle_search_rank extNone [['x']] ['7']) :=
  ⟨(C8_digit_query extNone [['x']] ['0'] (by decide)).1 (by decide),
   (C8_digit_query extNone [['x']] ['7'] (by decide)).2 (by decide)⟩

/-- C10: for all inputs the match score lies between 0 and 5.85 (the sum
1.2 + 1.0 + 0.9 + 0.85 of the boolean weights plus the maximal
similarity contributions 0.8 + 0.6 + 0.5). -/
theorem C10_score_bounds (E : Ext) (q t : List Char) :
    0 ≤ compute_match_score E q t ∧
      compute_match_score E q t ≤ 117/20 := by
  by_cases hqt : q = [] ∨ t = []
  · unfold compute_match_score
    rw [if_pos hqt]
    norm_num
  · push_neg at hqt
    rw [compute_match_score_eq E q t hqt.1 hqt.2]
    have s1l := similarity_ratio_le_one (normalize_text q)
      (normalize_text t)
    have s1n := similarity_ratio_nonneg (normalize_text q)
      (normalize_text t)
    have s2l := similarity_ratio_le_one (text_to_pinyin E q)
      (text_to_pinyin E t)
    have s2n := similarity_ratio_nonneg (text_to_pinyin E q)
      (text_to_pinyin E t)
    have s3l := similarity_ratio_le_one (text_to_pinyin_initials E q)
      (text_to_pinyin_initials E t)
    have s3n := similarity_ratio_nonneg (text_to_pinyin_initials E q)
      (text_to_pinyin_initials E t)
    constructor <;> split_ifs <;> linarith

end HM
